import Mathlib

/-!
Verification development for the PDF→Text/Excel converter.

The definitions below are a shallow embedding of the orchestration core:
`src/core/pdf_processor.py` (page-range resolution, PDF→image conversion,
OCR confidence filtering, per-page text extraction),
`src/core/table_extractor.py` (language-code translation, per-table
metadata generation) and `src/core/file_validator.py` (stream probes).
Python ints are modelled as `Int`, strings as `String`, parallel
word/confidence arrays as `List (String × Int)`, and exceptions as
explicit error results.
-/

namespace PdfConv

/-- Python `range(a, b + 1)` over integers, i.e. the list `a, a+1, …, b`
(empty when `b < a`). Used to model both `range(1, total_pages + 1)` and
the page sequence produced by the renderer for a contiguous span. -/
def intRange (a b : Int) : List Int :=
  (List.range (b + 1 - a).toNat).map (fun (i : Nat) => a + (i : Int))

/-- Python `str.strip()`: remove leading and trailing whitespace. (We do
not use `String.trim` because its `Substring`-based implementation does
not reduce in the kernel; this definition is extensionally the trim of
the string and evaluates.) -/
def strip (s : String) : String :=
  String.mk (((s.data.dropWhile Char.isWhitespace).reverse.dropWhile Char.isWhitespace).reverse)

/-- `TextExtractorImpl._filter_text_by_confidence`: iterate over the OCR
word list, keep a word when `int(conf) >= threshold` and `word.strip()` is
truthy (trimmed text non-empty), and join the survivors with single
spaces. The Python loop appends to an accumulator list; we fold the same
way. -/
def filter_text_by_confidence (threshold : Int) (words : List (String × Int)) : String :=
  let filtered_words :=
    words.foldl
      (fun acc w => if threshold ≤ w.2 ∧ strip w.1 ≠ "" then acc ++ [w.1] else acc)
      []
  String.intercalate " " filtered_words

/-- The keep-condition of `_filter_text_by_confidence`, as a Bool predicate. -/
def keepWord (threshold : Int) (w : String × Int) : Bool :=
  decide (threshold ≤ w.2) && decide (strip w.1 ≠ "")

/-- The exceptions raised by `extract_text` (`src/utils/exceptions.py`).
`validationError` carries the list of invalid page numbers that the
f-string `f"Invalid page numbers: {invalid_pages}"` embeds in the
message. -/
inductive PdfError where
  | pdfReadError (msg : String)
  | validationError (invalidPages : List Int)
  | ocrError (msg : String)
deriving DecidableEq

/-- The environment of one `extract_text` run: a readable PDF with its
page count, together with the OCR engine's behaviour on each rendered
page (`pytesseract.image_to_data` either returns parallel word/confidence
arrays, modelled as a pair list, or raises). A rendered image is
identified by the 1-indexed page number it depicts. -/
structure Pdf where
  totalPages : Nat
  ocr : Int → Except String (List (String × Int))

/-- Page-range resolution, the shared block of
`TextExtractorImpl.extract_text` (lines 186–193) and
`TableExtractorImpl.extract_tables` (lines 60–67):
`None` resolves to `list(range(1, total_pages + 1))`; otherwise the
out-of-range entries are collected (`[p for p in pages if p < 1 or p >
total_pages]`) and, if any exist, a `ValidationError` naming them all is
raised; a valid selection is returned as `sorted(pages)`. -/
def resolvePages (totalPages : Nat) (pages : Option (List Int)) : Except (List Int) (List Int) :=
  match pages with
  | none => .ok (intRange 1 totalPages)
  | some ps =>
    let invalid_pages := ps.filter (fun p => p < 1 || p > (totalPages : Int))
    if invalid_pages.isEmpty then .ok (List.insertionSort (· ≤ ·) ps)
    else .error invalid_pages

/-- `pdf2image.convert_from_bytes(pdf_bytes, first_page=a, last_page=b)`:
one image per document page in the span `a..b` (pages outside the
document are not produced). -/
def renderRange (pdf : Pdf) (firstPage lastPage : Int) : List Int :=
  (intRange firstPage lastPage).filter
    (fun p => decide (1 ≤ p) && decide (p ≤ (pdf.totalPages : Int)))

/-- Python `set(a) == set(b)`. -/
def sameMembers (a b : List Int) : Bool :=
  a.all (fun x => b.elem x) && b.all (fun x => a.elem x)

/-- `TextExtractorImpl._convert_pdf_to_images` (lines 247–272): a single
selected page is rendered alone; otherwise the span `min(pages)..
max(pages)` is rendered, and when `set(pages) != set(range(min, max+1))`
the images are re-indexed by `[p - min for p in pages]`, keeping only
indices below `len(images)`. On the empty list, `min(pages)` raises
`ValueError: min() arg is an empty sequence`, caught and re-raised as an
`OCRError` with the message below. -/
def convert_pdf_to_images (pdf : Pdf) (pages : List Int) : Except String (List Int) :=
  if pages.length == 1 then
    .ok (renderRange pdf (pages.headD 0) (pages.headD 0))
  else
    match pages with
    | [] => .error "Failed to convert PDF to images: min() arg is an empty sequence"
    | p :: ps =>
      let m := ps.foldl min p
      let M := ps.foldl max p
      let images := renderRange pdf m M
      if sameMembers (p :: ps) (intRange m M) then
        .ok images
      else
        let page_indices := (p :: ps).map (fun q => q - m)
        .ok (page_indices.filterMap
          (fun i => if h : i.toNat < images.length then some (images.get ⟨i.toNat, h⟩) else none))

/-- The body of the per-page OCR loop of `extract_text` (lines 201–227):
a page whose OCR call raises contributes the empty string; otherwise its
word data is confidence-filtered. -/
def perPageText (pdf : Pdf) (threshold : Int) (page : Int) : String :=
  match pdf.ocr page with
  | .ok text_data => filter_text_by_confidence threshold text_data
  | .error _ => ""

/-- `TextExtractorImpl.extract_text` (lines 160–235): validate the PDF
(a zero-page document raises `PDFReadError("PDF file contains no
pages")`), resolve the page range, convert the selected pages to images
(conversion failure surfaces as `OCRError`), then OCR each image with
per-page fault isolation. -/
def extract_text (pdf : Pdf) (pages : Option (List Int)) (threshold : Int) :
    Except PdfError (List String) :=
  if pdf.totalPages = 0 then .error (.pdfReadError "PDF file contains no pages")
  else
    match resolvePages pdf.totalPages pages with
    | .error invalid_pages => .error (.validationError invalid_pages)
    | .ok pages_to_process =>
      match convert_pdf_to_images pdf pages_to_process with
      | .error msg => .error (.ocrError msg)
      | .ok images => .ok (images.map (perPageText pdf threshold))

/-- The fixed dictionary `language_mapping` of
`TableExtractorImpl._convert_language_code` (lines 136–148). -/
def language_mapping : List (String × String) :=
  [("eng", "en"), ("fra", "fr"), ("deu", "de"), ("spa", "es"),
   ("ita", "it"), ("por", "pt"), ("rus", "ru"), ("jpn", "ja"),
   ("kor", "ko"), ("chi_sim", "ch"), ("chi_tra", "ch")]

/-- `TableExtractorImpl._convert_language_code` (lines 127–150):
`language_mapping.get(language, 'en')`. -/
def convert_language_code (language : String) : String :=
  match language_mapping.lookup language with
  | some code => code
  | none => "en"

/-- An `io.BytesIO` stream: the underlying byte buffer and the current
read position. -/
structure ByteStream where
  data : List Nat
  pos : Nat
deriving DecidableEq

/-- `file.tell()`. -/
def bsTell (s : ByteStream) : Nat := s.pos

/-- `file.seek(n)` (absolute). -/
def bsSeek (s : ByteStream) (n : Nat) : ByteStream := { s with pos := n }

/-- `file.seek(0, 2)`: seek to end of stream. -/
def bsSeekEnd (s : ByteStream) : ByteStream := { s with pos := s.data.length }

/-- `file.read(n)`: return at most `n` bytes starting at the current
position and advance the position by the number of bytes actually read
(CPython `BytesIO.read`). -/
def bsRead (s : ByteStream) (n : Nat) : List Nat × ByteStream :=
  let chunk := (s.data.drop s.pos).take n
  (chunk, { s with pos := s.pos + chunk.length })

/-- The bytes of `b'%PDF-'`. -/
def pdfMagic : List Nat := [37, 80, 68, 70, 45]

/-- `FileValidatorImpl.validate_file_type` (lines 27–64): save the
position, seek to 0, read 8 bytes, restore the position, then accept when
the header starts with `%PDF-` and raise `ValidationError` otherwise. -/
def validate_file_type (file : ByteStream) : Except String Bool × ByteStream :=
  let current_pos := bsTell file
  let f1 := bsSeek file 0
  let readRes := bsRead f1 8
  let header := readRes.1
  let f3 := bsSeek readRes.2 current_pos
  if pdfMagic.isPrefixOf header then (.ok true, f3)
  else (.error "File is not a valid PDF", f3)

/-- `FileValidatorImpl.validate_file_size` (lines 66–106): save the
position, seek to the end to learn the byte length, restore the position,
then compare the size in megabytes against the limit. The Python float
comparison `file_size / (1024 * 1024) > max_size_mb` is modelled by the
exact integer comparison `file_size > max_size_mb * 1024 * 1024`. -/
def validate_file_size (file : ByteStream) (max_size_mb : Nat) : Except String Bool × ByteStream :=
  let current_pos := bsTell file
  let f1 := bsSeekEnd file
  let file_size := bsTell f1
  let f2 := bsSeek f1 current_pos
  if file_size > max_size_mb * 1024 * 1024 then
    (.error "File size exceeds maximum allowed size", f2)
  else (.ok true, f2)

/-- The `content` attribute of a detected-table object as
`_generate_tables_metadata` probes it: missing (`hasattr` false), a
well-formed row list, or a value on which `len(...)`/`[0]` raises (the
library hands back loosely typed records, so the code guards with
`try`). -/
inductive ContentVal where
  | absent
  | rows (r : List (List Unit))
  | raising (msg : String)
deriving DecidableEq

/-- A detected table as seen by `_generate_tables_metadata`: the
`getattr`-probed attributes (`none` models an absent attribute, reported
as `'Unknown'`/`None`) and the `content` attribute. -/
structure PdfTable where
  page : Option Int
  bbox : Option (Int × Int × Int × Int)
  confidence : Option Int
  content : ContentVal
deriving DecidableEq

/-- The fully populated per-table record built inside the `try` block of
`_generate_tables_metadata` (lines 170–178). -/
structure TableInfo where
  table_id : Nat
  page_number : Option Int
  bbox : Option (Int × Int × Int × Int)
  confidence : Option Int
  rows : Nat
  columns : Nat
deriving DecidableEq

/-- The `try`-block body of `_generate_tables_metadata` for the `i`-th
(0-indexed) table: build the info record, where `rows` is
`len(table.content) if hasattr(...) else 0` and `columns` is
`len(table.content[0]) if (hasattr(...) and table.content) else 0`; a
`content` value on which `len` raises makes the whole block raise. -/
def tableInfoOf (i : Nat) (t : PdfTable) : Except String TableInfo :=
  match t.content with
  | .raising msg => .error msg
  | .absent => .ok ⟨i + 1, t.page, t.bbox, t.confidence, 0, 0⟩
  | .rows r =>
    .ok ⟨i + 1, t.page, t.bbox, t.confidence, r.length,
      match r with | [] => 0 | r0 :: _ => r0.length⟩

/-- One entry of the returned metadata list: either the fully populated
record, or the error entry `{'table_id': i + 1, 'page_number': 'Unknown',
'error': str(e)}` appended by the `except` branch. -/
inductive TableMetaEntry where
  | info (ti : TableInfo)
  | errEntry (table_id : Nat) (msg : String)
deriving DecidableEq

/-- `TableExtractorImpl._generate_tables_metadata` (lines 152–190):
`for i, table in enumerate(extracted_tables)`, append the info record,
or on failure the error entry, and never abort the batch. -/
def generate_tables_metadata (tables : List PdfTable) : List TableMetaEntry :=
  tables.enum.map (fun it =>
    match tableInfoOf it.1 it.2 with
    | .ok ti => .info ti
    | .error msg => .errEntry (it.1 + 1) msg)

/-- A detected table whose attributes are all present and whose content
is a well-formed 2×3 cell grid: metadata extraction succeeds on it. -/
def tableGood : PdfTable :=
  { page := some 1, bbox := some (0, 0, 10, 10), confidence := some 95,
    content := .rows [[(), (), ()], [(), (), ()]] }

/-- A detected table whose `content` value makes `len(...)` raise:
metadata extraction throws on it. -/
def tableBad : PdfTable :=
  { page := some 2, bbox := none, confidence := none,
    content := .raising "len() of unsized object" }

/-- A 1-page PDF whose single page OCRs to the one confident word `"a"`. -/
def pdfOnePage : Pdf := ⟨1, fun _ => .ok [("a", 90)]⟩

/-- A 5-page PDF whose OCR raises on page 2 and recognizes the confident
word `"w"` on every other page. -/
def pdfFivePages : Pdf :=
  ⟨5, fun p => if p == 2 then .error "tesseract failed" else .ok [("w", 80)]⟩

end PdfConv

namespace PdfConv

theorem filter_text_by_confidence_eq_filter (threshold : Int) (words : List (String × Int)) :
    filter_text_by_confidence threshold words =
      String.intercalate " " ((words.filter (keepWord threshold)).map Prod.fst) := by
  unfold filter_text_by_confidence
  have h : ∀ acc : List String,
      words.foldl
        (fun acc w => if threshold ≤ w.2 ∧ strip w.1 ≠ "" then acc ++ [w.1] else acc)
        acc = acc ++ (words.filter (keepWord threshold)).map Prod.fst := by
    induction words with
    | nil => intro acc; simp
    | cons w ws ih =>
      intro acc
      by_cases hk : threshold ≤ w.2 ∧ strip w.1 ≠ ""
      · simp only [List.foldl_cons, if_pos hk, ih, List.filter_cons]
        have hkw : keepWord threshold w = true := by
          simp [keepWord, hk.1, hk.2]
        simp [hkw]
      · simp only [List.foldl_cons, if_neg hk, ih, List.filter_cons]
        have hkw : keepWord threshold w = false := by
          rw [not_and_or] at hk
          rcases hk with h | h <;> simp [keepWord, h]
        simp [hkw]
  rw [h []]
  simp

theorem mem_intRange {a b x : Int} : x ∈ intRange a b ↔ a ≤ x ∧ x ≤ b := by
  unfold intRange
  rw [List.mem_map]
  constructor
  · rintro ⟨i, hi, rfl⟩
    rw [List.mem_range] at hi
    omega
  · rintro ⟨h1, h2⟩
    refine ⟨(x - a).toNat, ?_, ?_⟩
    · rw [List.mem_range]; omega
    · omega

theorem length_intRange (a b : Int) : (intRange a b).length = (b + 1 - a).toNat := by
  unfold intRange
  rw [List.length_map, List.length_range]

theorem nodup_intRange (a b : Int) : (intRange a b).Nodup := by
  unfold intRange
  refine List.Nodup.map ?_ (List.nodup_range _)
  intro i j hij
  dsimp only at hij
  omega

theorem foldl_min_mem (l : List Int) (a : Int) : l.foldl min a ∈ a :: l := by
  induction l generalizing a with
  | nil => simp
  | cons b l ih =>
    simp only [List.foldl_cons]
    rcases List.mem_cons.1 (ih (min a b)) with h | h
    · rw [h]
      rcases min_choice a b with hm | hm <;> simp [hm]
    · exact List.mem_cons_of_mem _ (List.mem_cons_of_mem _ h)

theorem foldl_min_le (l : List Int) (a : Int) : ∀ x ∈ a :: l, l.foldl min a ≤ x := by
  induction l generalizing a with
  | nil =>
    intro x hx
    simp only [List.mem_singleton] at hx
    simp [hx]
  | cons b l ih =>
    intro x hx
    simp only [List.foldl_cons]
    rcases List.mem_cons.1 hx with h | h
    · calc l.foldl min (min a b) ≤ min a b := ih (min a b) _ (List.mem_cons_self _ _)
        _ ≤ a := min_le_left a b
        _ = x := h.symm
    · rcases List.mem_cons.1 h with h2 | h2
      · calc l.foldl min (min a b) ≤ min a b := ih (min a b) _ (List.mem_cons_self _ _)
          _ ≤ b := min_le_right a b
          _ = x := h2.symm
      · exact ih (min a b) x (List.mem_cons_of_mem _ h2)

theorem foldl_max_mem (l : List Int) (a : Int) : l.foldl max a ∈ a :: l := by
  induction l generalizing a with
  | nil => simp
  | cons b l ih =>
    simp only [List.foldl_cons]
    rcases List.mem_cons.1 (ih (max a b)) with h | h
    · rw [h]
      rcases max_choice a b with hm | hm <;> simp [hm]
    · exact List.mem_cons_of_mem _ (List.mem_cons_of_mem _ h)

theorem foldl_max_ge (l : List Int) (a : Int) : ∀ x ∈ a :: l, x ≤ l.foldl max a := by
  induction l generalizing a with
  | nil =>
    intro x hx
    simp only [List.mem_singleton] at hx
    simp [hx]
  | cons b l ih =>
    intro x hx
    simp only [List.foldl_cons]
    rcases List.mem_cons.1 hx with h | h
    · calc x = a := h
        _ ≤ max a b := le_max_left a b
        _ ≤ l.foldl max (max a b) := ih (max a b) _ (List.mem_cons_self _ _)
    · rcases List.mem_cons.1 h with h2 | h2
      · calc x = b := h2
          _ ≤ max a b := le_max_right a b
          _ ≤ l.foldl max (max a b) := ih (max a b) _ (List.mem_cons_self _ _)
      · exact ih (max a b) x (List.mem_cons_of_mem _ h2)

theorem foldl_min_eq {l : List Int} {a lo : Int} (hmem : lo ∈ a :: l)
    (hlb : ∀ x ∈ a :: l, lo ≤ x) : l.foldl min a = lo :=
  le_antisymm (foldl_min_le l a lo hmem) (hlb _ (foldl_min_mem l a))

theorem foldl_max_eq {l : List Int} {a hi : Int} (hmem : hi ∈ a :: l)
    (hub : ∀ x ∈ a :: l, x ≤ hi) : l.foldl max a = hi :=
  le_antisymm (hub _ (foldl_max_mem l a)) (foldl_max_ge l a hi hmem)

theorem sameMembers_iff {a b : List Int} :
    sameMembers a b = true ↔ ∀ x, x ∈ a ↔ x ∈ b := by
  unfold sameMembers
  rw [Bool.and_eq_true, List.all_eq_true, List.all_eq_true]
  constructor
  · rintro ⟨h1, h2⟩ x
    exact ⟨fun hx => List.elem_iff.1 (h1 x hx), fun hx => List.elem_iff.1 (h2 x hx)⟩
  · intro h
    exact ⟨fun x hx => List.elem_iff.2 ((h x).1 hx), fun x hx => List.elem_iff.2 ((h x).2 hx)⟩

end PdfConv

namespace PdfConv

/-- C2: for every fixed OCR word output and threshold, the page text is
exactly the words whose confidence is ≥ the threshold (inclusive) and
whose trimmed text is non-empty, in original order, joined by single
spaces; in particular for words `[("Hello",85),("World",90),("x",10)]`
and threshold 50 the result is exactly `"Hello World"`. -/
theorem c2_confidence_filter_exact (threshold : Int) (words : List (String × Int)) :
    filter_text_by_confidence threshold words =
      String.intercalate " "
        ((words.filter (fun w => decide (threshold ≤ w.2) && decide (strip w.1 ≠ ""))).map
          Prod.fst) ∧
    filter_text_by_confidence 50 [("Hello", 85), ("World", 90), ("x", 10)] = "Hello World" :=
  ⟨filter_text_by_confidence_eq_filter threshold words, by decide⟩

/-- C8: confidence filtering is monotone in the threshold: for a fixed
OCR word output and thresholds `t1 ≤ t2`, the words retained at `t2` are
a sub-sequence (hence a subset) of those retained at `t1`. -/
theorem c8_filter_threshold_monotone (t1 t2 : Int) (h : t1 ≤ t2)
    (words : List (String × Int)) :
    (words.filter (keepWord t2)).Sublist (words.filter (keepWord t1)) := by
  apply List.monotone_filter_right
  intro w hw
  simp only [keepWord, Bool.and_eq_true, decide_eq_true_eq] at hw ⊢
  exact ⟨le_trans h hw.1, hw.2⟩

theorem c8_witness :
    (10 : Int) ≤ 50 ∧
    (([("Hello", 85), ("World", 90), ("x", 10)] : List (String × Int)).filter
        (keepWord 50)).Sublist
      (([("Hello", 85), ("World", 90), ("x", 10)] : List (String × Int)).filter
        (keepWord 10)) :=
  ⟨by decide, c8_filter_threshold_monotone 10 50 (by decide)
    [("Hello", 85), ("World", 90), ("x", 10)]⟩

/-- C4 (as frozen) is false on the code: `"deu"` is a key of the fixed
lookup table, mapping to `"de"`, so table-mode conversion of `"deu"`
yields `"de"`, not the English fallback `"en"`. -/
theorem c4_counterexample : convert_language_code "deu" = "de" ∧ "de" ≠ "en" := by
  exact ⟨by decide, by decide⟩

/-- C4 (amended): every language code that is not a key of the fixed
lookup table converts to `"en"` without failing; the code `"deu"` is a
key of the table and converts to `"de"`. -/
theorem c4_unknown_language_falls_back (lang : String)
    (h : language_mapping.lookup lang = none) :
    convert_language_code lang = "en" ∧ convert_language_code "deu" = "de" :=
  ⟨by simp [convert_language_code, h], by decide⟩

theorem c4_witness :
    language_mapping.lookup "xyz" = none ∧
    (convert_language_code "xyz" = "en" ∧ convert_language_code "deu" = "de") :=
  ⟨by decide, c4_unknown_language_falls_back "xyz" (by decide)⟩

/-- C5: both stream probes restore the stream's read position: for every
byte stream and starting position, `validate_file_type` and
`validate_file_size` return (on the accepting and on the rejecting path
alike, since both paths share the restored stream) a stream whose
position equals the position before the call. -/
theorem c5_probes_restore_position (s : ByteStream) (max_size_mb : Nat) :
    (validate_file_type s).2.pos = s.pos ∧
    (validate_file_size s max_size_mb).2.pos = s.pos := by
  constructor
  · unfold validate_file_type
    dsimp only [bsTell, bsSeek, bsRead]
    split <;> rfl
  · unfold validate_file_size
    dsimp only [bsTell, bsSeek, bsSeekEnd]
    split <;> rfl

end PdfConv

namespace PdfConv

/-- C3: for every total page count and every selection containing an
out-of-range value, page-range resolution fails with a validation error
whose carried list names every offending value (batch validation, not
fail-fast); in particular with 3 total pages and selection `[5, 0]` the
failure names both `5` and `0`. -/
theorem c3_batch_page_validation (total : Nat) (ps : List Int)
    (h : ∃ p ∈ ps, p < 1 ∨ (total : Int) < p) :
    (∃ bad, resolvePages total (some ps) = .error bad ∧
        ∀ p ∈ ps, (p < 1 ∨ (total : Int) < p) → p ∈ bad) ∧
    resolvePages 3 (some [5, 0]) = .error [5, 0] := by
  constructor
  · refine ⟨ps.filter (fun p => p < 1 || p > (total : Int)), ?_, ?_⟩
    · obtain ⟨p, hp, hcond⟩ := h
      have hmem : p ∈ ps.filter (fun p => p < 1 || p > (total : Int)) := by
        rw [List.mem_filter]
        refine ⟨hp, ?_⟩
        rcases hcond with h1 | h1 <;> simp [h1]
      unfold resolvePages
      dsimp only
      rw [if_neg]
      intro he
      rw [List.isEmpty_iff] at he
      rw [he] at hmem
      exact absurd hmem (List.not_mem_nil p)
    · intro q hq hcond
      rw [List.mem_filter]
      refine ⟨hq, ?_⟩
      rcases hcond with h1 | h1 <;> simp [h1]
  · rfl

theorem c3_witness :
    (∃ p ∈ ([5, 0] : List Int), p < 1 ∨ ((3 : Nat) : Int) < p) ∧
    ((∃ bad, resolvePages 3 (some [5, 0]) = .error bad ∧
        ∀ p ∈ ([5, 0] : List Int), (p < 1 ∨ ((3 : Nat) : Int) < p) → p ∈ bad) ∧
      resolvePages 3 (some [5, 0]) = .error [5, 0]) :=
  ⟨by decide, c3_batch_page_validation 3 [5, 0] (by decide)⟩

/-- C7: for every selection with all entries in `[1, total]`, page-range
resolution returns the selection sorted ascending, a permutation of the
input (so membership and multiplicities — in particular duplicates — are
unchanged). -/
theorem c7_valid_selection_sorted_unchanged (total : Nat) (ps : List Int)
    (h : ∀ p ∈ ps, 1 ≤ p ∧ p ≤ (total : Int)) :
    resolvePages total (some ps) = .ok (List.insertionSort (· ≤ ·) ps) ∧
    (List.insertionSort (· ≤ ·) ps).Perm ps ∧
    List.Sorted (· ≤ ·) (List.insertionSort (· ≤ ·) ps) := by
  refine ⟨?_, List.perm_insertionSort _ ps, List.sorted_insertionSort _ ps⟩
  unfold resolvePages
  dsimp only
  rw [if_pos]
  rw [List.isEmpty_iff, List.filter_eq_nil_iff]
  intro p hp
  have h2 := h p hp
  simp only [Bool.or_eq_true, decide_eq_true_eq, not_or]
  omega

theorem c7_witness :
    (∀ p ∈ ([3, 1, 3] : List Int), 1 ≤ p ∧ p ≤ ((5 : Nat) : Int)) ∧
    (resolvePages 5 (some [3, 1, 3]) = .ok (List.insertionSort (· ≤ ·) [3, 1, 3]) ∧
      (List.insertionSort (· ≤ ·) ([3, 1, 3] : List Int)).Perm [3, 1, 3] ∧
      List.Sorted (· ≤ ·) (List.insertionSort (· ≤ ·) ([3, 1, 3] : List Int))) :=
  ⟨by decide, c7_valid_selection_sorted_unchanged 5 [3, 1, 3] (by decide)⟩

end PdfConv

namespace PdfConv

/-- C9: metadata generation returns exactly one record per detected
table, in order; a table whose metadata extraction succeeds gets its
fully populated record, a table whose extraction throws gets an error
entry carrying its table id (`i + 1`), and the batch is never aborted;
in the concrete scenario (table #1 succeeds, table #2 throws) the result
has length 2, entry 2 is the error entry, and entry 1 is fully
populated. -/
theorem c9_table_metadata_fault_isolation (tables : List PdfTable) (i : Nat) (t : PdfTable)
    (hi : tables[i]? = some t) :
    (generate_tables_metadata tables).length = tables.length ∧
    (∀ ti, tableInfoOf i t = .ok ti →
      (generate_tables_metadata tables)[i]? = some (.info ti)) ∧
    (∀ msg, tableInfoOf i t = .error msg →
      (generate_tables_metadata tables)[i]? = some (.errEntry (i + 1) msg)) ∧
    generate_tables_metadata [tableGood, tableBad] =
      [.info ⟨1, some 1, some (0, 0, 10, 10), some 95, 2, 3⟩,
       .errEntry 2 "len() of unsized object"] := by
  have hget : (generate_tables_metadata tables)[i]? =
      some (match tableInfoOf i t with
        | .ok ti => TableMetaEntry.info ti
        | .error msg => TableMetaEntry.errEntry (i + 1) msg) := by
    unfold generate_tables_metadata
    rw [List.getElem?_map, List.getElem?_enum, hi]
    rfl
  refine ⟨?_, ?_, ?_, rfl⟩
  · unfold generate_tables_metadata
    rw [List.length_map, List.enum_length]
  · intro ti hti
    rw [hget, hti]
  · intro msg hmsg
    rw [hget, hmsg]

theorem c9_witness :
    ([tableGood, tableBad][1]? = some tableBad) ∧
    ((generate_tables_metadata [tableGood, tableBad]).length = [tableGood, tableBad].length ∧
      (∀ ti, tableInfoOf 1 tableBad = .ok ti →
        (generate_tables_metadata [tableGood, tableBad])[1]? = some (.info ti)) ∧
      (∀ msg, tableInfoOf 1 tableBad = .error msg →
        (generate_tables_metadata [tableGood, tableBad])[1]? =
          some (.errEntry (1 + 1) msg)) ∧
      generate_tables_metadata [tableGood, tableBad] =
        [.info ⟨1, some 1, some (0, 0, 10, 10), some 95, 2, 3⟩,
         .errEntry 2 "len() of unsized object"]) :=
  ⟨rfl, c9_table_metadata_fault_isolation [tableGood, tableBad] 1 tableBad rfl⟩

end PdfConv

namespace PdfConv

theorem resolvePages_valid (total : Nat) (ps : List Int)
    (h : ∀ p ∈ ps, 1 ≤ p ∧ p ≤ (total : Int)) :
    resolvePages total (some ps) = .ok (List.insertionSort (· ≤ ·) ps) := by
  unfold resolvePages
  dsimp only
  rw [if_pos]
  rw [List.isEmpty_iff, List.filter_eq_nil_iff]
  intro p hp
  have h2 := h p hp
  simp only [Bool.or_eq_true, decide_eq_true_eq, not_or]
  omega

theorem convert_pdf_to_images_ok (pdf : Pdf) (pages : List Int) (h : pages ≠ []) :
    ∃ images, convert_pdf_to_images pdf pages = .ok images := by
  rcases pages with _ | ⟨p, ps⟩
  · exact absurd rfl h
  · unfold convert_pdf_to_images
    split
    · exact ⟨_, rfl⟩
    · dsimp only
      split
      · exact ⟨_, rfl⟩
      · exact ⟨_, rfl⟩

theorem renderRange_eq (pdf : Pdf) {a b : Int} (ha : 1 ≤ a)
    (hb : b ≤ (pdf.totalPages : Int)) :
    renderRange pdf a b = intRange a b := by
  unfold renderRange
  apply List.filter_eq_self.2
  intro p hp
  rw [mem_intRange] at hp
  simp only [Bool.and_eq_true, decide_eq_true_eq]
  omega

theorem intRange_self (a : Int) : intRange a a = [a] := by
  unfold intRange
  have h1 : (a + 1 - a).toNat = 1 := by omega
  rw [h1]
  norm_num [List.range_succ]

theorem intRange_cons {a b : Int} (hab : a ≤ b) :
    intRange a b = a :: intRange (a + 1) b := by
  unfold intRange
  have hn : (b + 1 - a).toNat = (b + 1 - (a + 1)).toNat + 1 := by omega
  rw [hn, List.range_succ_eq_map, List.map_cons, List.map_map]
  congr 1
  · norm_num
  · apply List.map_congr_left
    intro i hi
    simp only [Function.comp_apply, Nat.succ_eq_add_one]
    push_cast
    ring

theorem extract_text_eq_map (pdf : Pdf) (sel : Option (List Int)) (threshold : Int)
    {pp images : List Int}
    (hT : pdf.totalPages ≠ 0)
    (hres : resolvePages pdf.totalPages sel = .ok pp)
    (hconv : convert_pdf_to_images pdf pp = .ok images) :
    extract_text pdf sel threshold = .ok (images.map (perPageText pdf threshold)) := by
  unfold extract_text
  rw [if_neg hT, hres]
  dsimp only
  rw [hconv]

theorem convert_pdf_to_images_intRange (pdf : Pdf) {a b : Int} (ha : 1 ≤ a)
    (hb : b ≤ (pdf.totalPages : Int)) (hab : a ≤ b) :
    convert_pdf_to_images pdf (intRange a b) = .ok (intRange a b) := by
  rcases eq_or_lt_of_le hab with heq | hlt
  · subst heq
    rw [intRange_self]
    unfold convert_pdf_to_images
    rw [if_pos (by rfl)]
    simp only [List.headD_cons]
    rw [renderRange_eq pdf ha hb, intRange_self]
  · have hcons : intRange a b = a :: intRange (a + 1) b := intRange_cons hab
    rw [hcons]
    unfold convert_pdf_to_images
    have hlen : (a :: intRange (a + 1) b).length ≠ 1 := by
      rw [List.length_cons, length_intRange]
      omega
    rw [if_neg (by simpa using hlen)]
    dsimp only
    have hbound : ∀ x ∈ a :: intRange (a + 1) b, a ≤ x := by
      intro x hx
      rcases List.mem_cons.1 hx with h | h
      · exact le_of_eq h.symm
      · rw [mem_intRange] at h
        omega
    have hub : ∀ x ∈ a :: intRange (a + 1) b, x ≤ b := by
      intro x hx
      rcases List.mem_cons.1 hx with h | h
      · omega
      · rw [mem_intRange] at h
        omega
    have hm : (intRange (a + 1) b).foldl min a = a :=
      foldl_min_eq (List.mem_cons_self _ _) hbound
    have hM : (intRange (a + 1) b).foldl max a = b :=
      foldl_max_eq (List.mem_cons.2 (Or.inr (mem_intRange.2 ⟨by omega, le_refl b⟩))) hub
    rw [hm, hM, ← hcons]
    have hsame : sameMembers (intRange a b) (intRange a b) = true :=
      sameMembers_iff.2 (fun x => Iff.rfl)
    rw [if_pos hsame, renderRange_eq pdf ha hb]

theorem convert_pdf_to_images_of_sameMembers (pdf : Pdf) {q : List Int} {lo hi : Int}
    (hlen : q.length ≠ 1) (hne : q ≠ [])
    (hmem : ∀ x, x ∈ q ↔ x ∈ intRange lo hi)
    (h1lo : 1 ≤ lo) (hhiT : hi ≤ (pdf.totalPages : Int)) (hlohi : lo ≤ hi) :
    convert_pdf_to_images pdf q = .ok (intRange lo hi) := by
  rcases q with _ | ⟨c, cs⟩
  · exact absurd rfl hne
  · unfold convert_pdf_to_images
    rw [if_neg (by simpa using hlen)]
    dsimp only
    have hbound : ∀ x ∈ c :: cs, lo ≤ x := fun x hx => (mem_intRange.1 ((hmem x).1 hx)).1
    have hub : ∀ x ∈ c :: cs, x ≤ hi := fun x hx => (mem_intRange.1 ((hmem x).1 hx)).2
    have hlomem : lo ∈ c :: cs := (hmem lo).2 (mem_intRange.2 ⟨le_refl lo, hlohi⟩)
    have hhimem : hi ∈ c :: cs := (hmem hi).2 (mem_intRange.2 ⟨hlohi, le_refl hi⟩)
    rw [foldl_min_eq hlomem hbound, foldl_max_eq hhimem hub]
    rw [if_pos (sameMembers_iff.2 hmem)]
    exact congrArg _ (renderRange_eq pdf h1lo hhiT)

end PdfConv

namespace PdfConv

/-- C1 (as frozen) is false on the code: the code resolves only an
*absent* selection (`None`) to the full range. On a readable 1-page PDF,
the *empty list* selection passes validation but then crashes the
rendering step (`min()` of an empty sequence), surfacing as an
`OCRError` instead of the full-range result `.ok ["a"]` that the absent
selection produces. -/
theorem c1_counterexample :
    extract_text pdfOnePage (some []) 50 =
      .error (.ocrError "Failed to convert PDF to images: min() arg is an empty sequence") ∧
    extract_text pdfOnePage (some []) 50 ≠ .ok ["a"] ∧
    extract_text pdfOnePage none 50 = .ok ["a"] := by
  refine ⟨rfl, ?_, rfl⟩
  intro hcontra
  have h1 : extract_text pdfOnePage (some []) 50 =
      Except.error (PdfError.ocrError
        "Failed to convert PDF to images: min() arg is an empty sequence") := rfl
  rw [h1] at hcontra
  exact Except.noConfusion hcontra

/-- C1 (amended): for every readable PDF with at least one page, an
*absent* selection (`None`) resolves to the full range `1..T` and
extraction returns one string per page of the document; the *empty list*
selection instead fails with the `OCRError` raised when the renderer is
asked for `min([])`. -/
theorem c1_none_full_range_empty_list_fails (pdf : Pdf) (threshold : Int)
    (h : 1 ≤ pdf.totalPages) :
    (∃ texts, extract_text pdf none threshold = .ok texts ∧
      texts.length = pdf.totalPages) ∧
    extract_text pdf (some []) threshold =
      .error (.ocrError "Failed to convert PDF to images: min() arg is an empty sequence") := by
  constructor
  · have hres : resolvePages pdf.totalPages none = .ok (intRange 1 pdf.totalPages) := rfl
    have hconv := convert_pdf_to_images_intRange pdf (le_refl 1)
      (le_refl (pdf.totalPages : Int)) (by omega)
    refine ⟨_, extract_text_eq_map pdf none threshold (by omega) hres hconv, ?_⟩
    rw [List.length_map, length_intRange]
    omega
  · have hres : resolvePages pdf.totalPages (some []) = .ok [] := rfl
    unfold extract_text
    rw [if_neg (by omega), hres]
    rfl

theorem c1_witness :
    1 ≤ pdfOnePage.totalPages ∧
    ((∃ texts, extract_text pdfOnePage none 50 = .ok texts ∧
        texts.length = pdfOnePage.totalPages) ∧
      extract_text pdfOnePage (some []) 50 =
        .error (.ocrError "Failed to convert PDF to images: min() arg is an empty sequence")) :=
  ⟨by decide, c1_none_full_range_empty_list_fails pdfOnePage 50 (by decide)⟩

/-- C6: in every text-extraction run over a readable PDF (absent
selection, or a non-empty valid one), the run succeeds as a whole with
one entry per processed page, each entry computed by the per-page
handler, and a page whose OCR raises contributes the empty string
instead of propagating the error. -/
theorem c6_per_page_fault_isolation (pdf : Pdf) (threshold : Int) (sel : Option (List Int))
    (hT : 1 ≤ pdf.totalPages)
    (hsel : match sel with
      | none => True
      | some ps => ps ≠ [] ∧ ∀ p ∈ ps, 1 ≤ p ∧ p ≤ (pdf.totalPages : Int)) :
    ∃ pgs : List Int,
      extract_text pdf sel threshold = .ok (pgs.map (perPageText pdf threshold)) ∧
      ∀ p msg, pdf.ocr p = .error msg → perPageText pdf threshold p = "" := by
  have hpp : ∃ pp, resolvePages pdf.totalPages sel = .ok pp ∧ pp ≠ [] := by
    match sel with
    | none =>
      refine ⟨intRange 1 pdf.totalPages, rfl, List.ne_nil_of_length_pos ?_⟩
      rw [length_intRange]
      omega
    | some ps =>
      obtain ⟨hne, hval⟩ := hsel
      refine ⟨_, resolvePages_valid _ _ hval, List.ne_nil_of_length_pos ?_⟩
      rw [List.length_insertionSort]
      exact List.length_pos.2 hne
  obtain ⟨pp, hres, hppne⟩ := hpp
  obtain ⟨images, hconv⟩ := convert_pdf_to_images_ok pdf pp hppne
  refine ⟨images, extract_text_eq_map pdf sel threshold (by omega) hres hconv, ?_⟩
  intro p msg hp
  unfold perPageText
  rw [hp]

theorem c6_witness :
    1 ≤ pdfFivePages.totalPages ∧
    (∃ pgs : List Int,
      extract_text pdfFivePages none 50 = .ok (pgs.map (perPageText pdfFivePages 50)) ∧
      ∀ p msg, pdfFivePages.ocr p = .error msg → perPageText pdfFivePages 50 p = "") ∧
    extract_text pdfFivePages none 50 = .ok ["w", "", "w", "w", "w"] :=
  ⟨by decide, c6_per_page_fault_isolation pdfFivePages 50 none (by decide) trivial, rfl⟩

/-- C10: for every valid page selection that contains duplicates and
whose distinct values form a contiguous range `lo..hi`, `extract_text`
succeeds and returns one string per *distinct* page — strictly fewer
entries than the selection has — because the rendering step renders the
span `min..max` once and the set-equality check skips re-indexing. -/
theorem c10_contiguous_duplicates_collapsed (pdf : Pdf) (threshold : Int)
    (ps : List Int) (lo hi : Int)
    (hval : ∀ p ∈ ps, 1 ≤ p ∧ p ≤ (pdf.totalPages : Int))
    (hdup : ¬ ps.Nodup)
    (hcontig : sameMembers ps (intRange lo hi) = true) :
    ∃ texts, extract_text pdf (some ps) threshold = .ok texts ∧
      texts.length = ps.dedup.length ∧ texts.length < ps.length := by
  have hmemiff := sameMembers_iff.1 hcontig
  have hlen2 : 2 ≤ ps.length := by
    rcases ps with _ | ⟨x, _ | ⟨y, l⟩⟩
    · exact absurd List.nodup_nil hdup
    · exact absurd (List.nodup_singleton x) hdup
    · simp only [List.length_cons]
      omega
  have hne : ps ≠ [] := List.ne_nil_of_length_pos (by omega)
  obtain ⟨p0, hp0⟩ := List.exists_mem_of_ne_nil ps hne
  have hlohi : lo ≤ hi := by
    have := mem_intRange.1 ((hmemiff p0).1 hp0)
    omega
  have hlo_mem : lo ∈ ps := (hmemiff lo).2 (mem_intRange.2 ⟨le_refl lo, hlohi⟩)
  have hhi_mem : hi ∈ ps := (hmemiff hi).2 (mem_intRange.2 ⟨hlohi, le_refl hi⟩)
  have h1lo : 1 ≤ lo := (hval lo hlo_mem).1
  have hhiT : hi ≤ (pdf.totalPages : Int) := (hval hi hhi_mem).2
  have hres := resolvePages_valid pdf.totalPages ps hval
  have hperm : (List.insertionSort (· ≤ ·) ps).Perm ps := List.perm_insertionSort _ ps
  have hqmem : ∀ x, x ∈ List.insertionSort (· ≤ ·) ps ↔ x ∈ intRange lo hi :=
    fun x => (hperm.mem_iff).trans (hmemiff x)
  have hqlen : (List.insertionSort (· ≤ ·) ps).length = ps.length :=
    List.length_insertionSort _ ps
  have hq1 : (List.insertionSort (· ≤ ·) ps).length ≠ 1 := by omega
  have hqne : List.insertionSort (· ≤ ·) ps ≠ [] := List.ne_nil_of_length_pos (by omega)
  have hconv := convert_pdf_to_images_of_sameMembers pdf hq1 hqne hqmem h1lo hhiT hlohi
  refine ⟨_, extract_text_eq_map pdf (some ps) threshold (by omega) hres hconv, ?_, ?_⟩
  all_goals rw [List.length_map]
  · have hd1 : ps.dedup.Nodup := List.nodup_dedup ps
    have hd2 : (intRange lo hi).Nodup := nodup_intRange lo hi
    have hfin : ps.dedup.toFinset = (intRange lo hi).toFinset := by
      ext x
      simp only [List.mem_toFinset, List.mem_dedup]
      exact hmemiff x
    exact ((List.perm_of_nodup_nodup_toFinset_eq hd1 hd2 hfin).length_eq).symm
  · have hd1 : ps.dedup.Nodup := List.nodup_dedup ps
    have hd2 : (intRange lo hi).Nodup := nodup_intRange lo hi
    have hfin : ps.dedup.toFinset = (intRange lo hi).toFinset := by
      ext x
      simp only [List.mem_toFinset, List.mem_dedup]
      exact hmemiff x
    have hlen_eq : (intRange lo hi).length = ps.dedup.length :=
      ((List.perm_of_nodup_nodup_toFinset_eq hd1 hd2 hfin).length_eq).symm
    have hsub := List.dedup_sublist ps
    have hle := hsub.length_le
    have hneq : ps.dedup.length ≠ ps.length := by
      intro heq
      exact hdup (hsub.eq_of_length heq ▸ hd1)
    omega

theorem c10_witness :
    (∀ p ∈ ([3, 3] : List Int), 1 ≤ p ∧ p ≤ (pdfFivePages.totalPages : Int)) ∧
    ¬ ([3, 3] : List Int).Nodup ∧
    sameMembers [3, 3] (intRange 3 3) = true ∧
    (∃ texts, extract_text pdfFivePages (some [3, 3]) 50 = .ok texts ∧
      texts.length = ([3, 3] : List Int).dedup.length ∧
      texts.length < ([3, 3] : List Int).length) ∧
    extract_text pdfFivePages (some [3, 3]) 50 = .ok ["w"] :=
  ⟨by decide, by decide, by decide,
    c10_contiguous_duplicates_collapsed pdfFivePages 50 [3, 3] 3 3
      (by decide) (by decide) (by decide), rfl⟩

end PdfConv
